import Mathlib

/-!
Verification development for `src/deteccion_invoice.py`, an OCR post-processing
script with two pipelines: invoice amount extraction and report-card grade
extraction.  The Python functions are shallowly embedded as executable Lean
definitions over `List Char` / `String`, with Python floats modelled as exact
rationals (every numeral the program parses is a finite decimal, and the
comparisons the program performs are preserved by the exact model).
Python's `\d` is modelled as the ASCII digits, and whitespace as the ASCII
whitespace characters, matching the ASCII texts the keyword sets target.
-/

set_option maxRecDepth 20000

namespace Deteccion

/-- ASCII digit test, modelling `\d` of the Python regexes (and the digit
characters accepted by `float`). -/
def isDigitC (c : Char) : Bool := 48 ≤ c.toNat && c.toNat ≤ 57

/-- ASCII whitespace, modelling the characters stripped by `str.strip()`. -/
def isSpaceC (c : Char) : Bool :=
  c.toNat == 32 || c.toNat == 9 || c.toNat == 10 || c.toNat == 13

/-- Embeds Python `str.strip()`: drop whitespace from both ends. -/
def trimChars (cs : List Char) : List Char :=
  ((cs.dropWhile isSpaceC).reverse.dropWhile isSpaceC).reverse

/-- Embeds Python `str.rfind(c)`: highest index of `c`, or `-1` when absent. -/
def rfind (c : Char) : List Char → Int
  | [] => -1
  | x :: xs => if rfind c xs ≥ 0 then rfind c xs + 1 else if x == c then 0 else -1

/-- Embeds Python `s.split(".")` at character level. -/
def splitDot : List Char → List (List Char)
  | [] => [[]]
  | c :: cs =>
    match splitDot cs with
    | [] => [[c]]
    | p :: ps => if c == '.' then [] :: p :: ps else (c :: p) :: ps

/-- Embeds Python `"".join(parts[:-1]) + "." + parts[-1]`. -/
def joinParts (ps : List (List Char)) : List Char :=
  ps.dropLast.flatten ++ '.' :: ps.getLastD []

/-- Numeric value of a digit string, most significant first (`digitsVal "98" = 98`). -/
def digitsVal (cs : List Char) : Nat :=
  cs.foldl (fun a c => 10 * a + (c.toNat - 48)) 0

/-- Embeds Python `float(s)` restricted to the unsigned digit-and-dot strings
that `_normaliza_num` can feed it (the other forms `float` accepts — signs,
exponents, `inf`/`nan`, underscores — never arise from the regex tokens):
at most one `.`, at least one digit, value read exactly as a rational.
The value of `ip.fp` is built with `mkRat` as `(ip * 10^|fp| + fp) / 10^|fp|`,
which equals `ip + fp / 10^|fp|` (see `mkRat_decimal_eq`). -/
def parseFloatChars (cs : List Char) : Option ℚ :=
  if cs.isEmpty then none
  else if cs.all (fun c => isDigitC c || c == '.') then
    if cs.any isDigitC then
      if cs.count '.' == 0 then
        some (mkRat (digitsVal cs) 1)
      else if cs.count '.' == 1 then
        some (mkRat
          (digitsVal (cs.takeWhile (fun c => c != '.')) *
              10 ^ ((cs.dropWhile (fun c => c != '.')).tail).length +
            digitsVal ((cs.dropWhile (fun c => c != '.')).tail))
          (10 ^ ((cs.dropWhile (fun c => c != '.')).tail).length))
      else none
    else none
  else none

/-- Embeds `_normaliza_num` (src/deteccion_invoice.py, lines 55-74) at
character level: strip, drop internal spaces, disambiguate `.`/`,`, parse. -/
def normChars (cs0 : List Char) : Option ℚ :=
  let cs := (trimChars cs0).filter (fun c => c != ' ')
  if cs.isEmpty then none
  else
    parseFloatChars
      (if cs.contains ',' && cs.contains '.' then
        if rfind ',' cs > rfind '.' cs then
          (cs.filter (fun c => c != '.')).map (fun c => if c == ',' then '.' else c)
        else
          cs.filter (fun c => c != ',')
      else if cs.contains ',' && cs.count ',' == 1 then
        cs.map (fun c => if c == ',' then '.' else c)
      else if cs.count '.' > 1 then
        joinParts (splitDot cs)
      else cs)

/-- `_normaliza_num` on a `String`. -/
def normalizaNum (s : String) : Option ℚ := normChars s.data

example : normalizaNum "1.234,56" = some (mkRat 123456 100) := by decide
example : normalizaNum "1,234.56" = some (mkRat 123456 100) := by decide
example : normalizaNum "98,0" = some 98 := by decide
example : normalizaNum "" = none := by decide
example : normalizaNum "12.3.456" = some (mkRat 123456 1000) := by decide
example : normalizaNum "12." = some 12 := by decide
example : normalizaNum "1,2,3" = none := by decide
example : normalizaNum " 98, 0 " = some 98 := by decide

/-! ## Invoice pipeline: `buscar_montos`, `_hay_total`, `procesar_factura`

The money regex `\d{1,3}(?:[.,]\d{3})*(?:[.,]\d{2})|\d+(?:[.,]\d{2})` is
embedded as an explicit backtracking matcher with Python `re` semantics:
left-to-right non-overlapping scan, first alternative preferred, greedy
quantifiers with backtracking. -/

/-- Is the character one of the separators `[.,]` of the regexes? -/
def isSep (c : Char) : Bool := c == '.' || c == ','

/-- All ways `(?:[.,]\d{3})*` can match a prefix of `cs`, in greedy order
(most repetitions first); each entry is (consumed prefix, rest). -/
def starStates : List Char → List (List Char × List Char)
  | c :: d1 :: d2 :: d3 :: rest =>
    if isSep c && isDigitC d1 && isDigitC d2 && isDigitC d3 then
      ((starStates rest).map (fun p => (c :: d1 :: d2 :: d3 :: p.1, p.2))) ++
        [([], c :: d1 :: d2 :: d3 :: rest)]
    else [([], c :: d1 :: d2 :: d3 :: rest)]
  | cs => [([], cs)]

/-- Matches `(?:[.,]\d{2})` at the front of `cs`. -/
def matchTail2 (cs : List Char) : Option (List Char × List Char) :=
  match cs with
  | c :: d1 :: d2 :: rest =>
    if isSep c && isDigitC d1 && isDigitC d2 then some ([c, d1, d2], rest) else none
  | _ => none

/-- Matches the first money alternative `\d{1,3}(?:[.,]\d{3})*(?:[.,]\d{2})`
at the front of `cs`: greedy `\d{1,3}` (3, then 2, then 1 digits), greedy
star, mandatory cents tail. -/
def matchMoneyA (cs : List Char) : Option (List Char × List Char) :=
  let nd := (cs.takeWhile isDigitC).length
  let ks := if 3 ≤ nd then [3, 2, 1] else if nd == 2 then [2, 1] else if nd == 1 then [1] else []
  ks.findSome? (fun k =>
    (starStates (cs.drop k)).findSome? (fun p =>
      (matchTail2 p.2).map (fun t => (cs.take k ++ p.1 ++ t.1, t.2))))

/-- Matches the second money alternative `\d+(?:[.,]\d{2})` at the front of
`cs`: greedy `\d+` with backtracking, then the cents tail. -/
def matchMoneyB (cs : List Char) : Option (List Char × List Char) :=
  let nd := (cs.takeWhile isDigitC).length
  (List.range nd).findSome? (fun i =>
    (matchTail2 (cs.drop (nd - i))).map (fun t => (cs.take (nd - i) ++ t.1, t.2)))

/-- One attempt of the full money pattern at the current position:
alternative A first, then B, as Python `re` alternation does. -/
def matchMoney (cs : List Char) : Option (List Char × List Char) :=
  match matchMoneyA cs with
  | some r => some r
  | none => matchMoneyB cs

/-- `re.findall` scan for the money pattern: try a match at each position,
emit it and continue after it, else advance one character.  Structural fuel
(`cs.length` suffices: every step consumes at least one character). -/
def findallMoneyAux : Nat → List Char → List (List Char)
  | 0, _ => []
  | _, [] => []
  | Nat.succ fuel, c :: cs =>
    match matchMoney (c :: cs) with
    | some (m, r) => m :: findallMoneyAux fuel r
    | none => findallMoneyAux fuel cs

/-- `re.findall(patron, texto)` of `buscar_montos`. -/
def findallMoney (cs : List Char) : List (List Char) :=
  findallMoneyAux cs.length cs

/-- The `vistos`/`montos` dedup loop of `buscar_montos`: keep the first
occurrence of each value, skipping values already seen. -/
def dedupFirstAux (vistos : List ℚ) : List ℚ → List ℚ
  | [] => []
  | v :: vs =>
    if vistos.contains v then dedupFirstAux vistos vs
    else v :: dedupFirstAux (v :: vistos) vs

/-- Embeds `buscar_montos` (lines 79-93): regex scan, normalize, dedup by
exact value, then `montos.sort()` ascending (insertion sort produces the
same list as Python's stable sort: both are sorted permutations, unique on a
duplicate-free list). -/
def buscarMontos (texto : String) : List ℚ :=
  List.insertionSort (· ≤ ·)
    (dedupFirstAux [] ((findallMoney texto.data).filterMap normChars))

/-- The `TOTAL_PATTERNS` tuple. -/
def TOTAL_PATTERNS : List String :=
  ["TOTAL", "Total", "Amount Due", "AMOUNT DUE", "Grand Total", "GRAND TOTAL",
   "Importe Total", "IMPORTE TOTAL", "Total a pagar", "TOTAL A PAGAR"]

/-- Does `needle` occur as a contiguous substring of `hay`
(Python `needle in hay`)? -/
def startsWithL : List Char → List Char → Bool
  | [], _ => true
  | _ :: _, [] => false
  | a :: as, b :: bs => a == b && startsWithL as bs

/-- Substring containment at character level. -/
def containsSub (needle : List Char) : List Char → Bool
  | [] => startsWithL needle []
  | c :: cs => startsWithL needle (c :: cs) || containsSub needle cs

/-- Embeds `_hay_total` (lines 95-97): some uppercased pattern occurs in the
uppercased text. -/
def hayTotal (texto : String) : Bool :=
  TOTAL_PATTERNS.any (fun p =>
    containsSub (p.data.map Char.toUpper) (texto.data.map Char.toUpper))

/-- The distinct reported outcomes of `procesar_factura` (lines 99-122):
total candidate found / amounts without a TOTAL word / no amounts /
exception caught. -/
inductive ResultadoFactura where
  | conTotal (montos : List ℚ) (candidato : ℚ)
  | sinPalabraTotal (montos : List ℚ)
  | sinMontos
  | fallo
deriving DecidableEq

/-- Embeds `procesar_factura`: the document is either its OCR text or `none`
when obtaining the text raises (the `except` branch reports the failure and
returns).  The body strips the text, extracts amounts, and branches on
`_hay_total` and non-emptiness; the total candidate is `montos[-1]`. -/
def procesarFactura (doc : Option String) : ResultadoFactura :=
  match doc with
  | none => ResultadoFactura.fallo
  | some texto0 =>
    let texto : String := ⟨trimChars texto0.data⟩
    let montos := buscarMontos texto
    if hayTotal texto = true ∧ montos ≠ [] then
      ResultadoFactura.conTotal montos (montos.getLastD 0)
    else if montos ≠ [] then ResultadoFactura.sinPalabraTotal montos
    else ResultadoFactura.sinMontos

/-- Embeds the loop of `correr_facturas` (lines 136-137): every file is
processed, each inside its own exception boundary. -/
def correrFacturas (docs : List (Option String)) : List ResultadoFactura :=
  docs.map procesarFactura

example : findallMoney "Total: $1,200.00 and 50.00".data =
    ["1,200.00".data, "50.00".data] := by decide
example : buscarMontos "Total: $1,200.00 and 50.00" = [50, 1200] := by decide
example : hayTotal "Total: $1,200.00 and 50.00" = true := by decide
example : procesarFactura (some "Total: $1,200.00 and 50.00") =
    ResultadoFactura.conTotal [50, 1200] 1200 := by decide
example : buscarMontos "50.00 75.25" = [50, mkRat 7525 100] := by decide
example : procesarFactura (some "hi") = ResultadoFactura.sinMontos := by decide
example : findallMoney "1.2345,00".data = ["1.23".data, "45,00".data] := by decide
example : findallMoney "1234.56".data = ["1234.56".data] := by decide

/-! ## Grades pipeline: `buscar_notas_finales`, `procesar_boletin` -/

/-- The `NOTA_FINAL_KEYS` tuple (lines 143-146). -/
def NOTA_FINAL_KEYS : List String :=
  ["NOTA FINAL", "Nota Final", "Nota final", "NOTA  FINAL", "FINAL", "N. FINAL"]

/-- Embeds `_es_linea_cabecera_notas` (lines 148-150): some key occurs in
the uppercased line (the keys themselves are not uppercased, as in the
source, so the mixed-case variants can never fire). -/
def esLineaCabeceraNotas (ln : List Char) : Bool :=
  NOTA_FINAL_KEYS.any (fun k => containsSub k.data (ln.map Char.toUpper))

/-- Matches the grade number pattern `(?:\d{1,3}(?:[.,]\d{1,2})?)` at the
front of `cs`: greedy `\d{1,3}` (its continuation is optional, so no
backtracking can occur), then the optional fraction, greedily two digits,
else one, else empty. -/
def matchGradeNum (cs : List Char) : Option (List Char × List Char) :=
  let nd := (cs.takeWhile isDigitC).length
  if nd == 0 then none
  else
    let k := min 3 nd
    let pre := cs.take k
    match cs.drop k with
    | c :: d1 :: d2 :: rest =>
      if isSep c && isDigitC d1 && isDigitC d2 then some (pre ++ [c, d1, d2], rest)
      else if isSep c && isDigitC d1 then some (pre ++ [c, d1], d2 :: rest)
      else some (pre, c :: d1 :: d2 :: rest)
    | c :: d1 :: rest =>
      if isSep c && isDigitC d1 then some (pre ++ [c, d1], rest)
      else some (pre, c :: d1 :: rest)
    | rest => some (pre, rest)

/-- `re.findall` scan for the grade number pattern, with structural fuel. -/
def findallGradeAux : Nat → List Char → List (List Char)
  | 0, _ => []
  | _, [] => []
  | Nat.succ fuel, c :: cs =>
    match matchGradeNum (c :: cs) with
    | some (m, r) => m :: findallGradeAux fuel r
    | none => findallGradeAux fuel cs

/-- `re.findall(r"(?:\d{1,3}(?:[.,]\d{1,2})?)", ln)` of
`_extrae_ult_num_0_100`. -/
def findallGrade (cs : List Char) : List (List Char) :=
  findallGradeAux cs.length cs

/-- Embeds `_extrae_ult_num_0_100` (lines 152-168): walk the matched
numbers from the end of the line, normalize, return the first whose value
lies in `[0, 100]`. -/
def extraeUltNum (ln : List Char) : Option ℚ :=
  (findallGrade ln).reverse.findSome? (fun num =>
    match normChars num with
    | none => none
    | some v => if 0 ≤ v ∧ v ≤ 100 then some v else none)

/-- Embeds Python `texto.splitlines()` split at `'\n'` (the only line
terminator OCR text contains), at character level; auxiliary split. -/
def splitNL : List Char → List (List Char)
  | [] => [[]]
  | c :: cs =>
    match splitNL cs with
    | [] => [[c]]
    | l :: ls => if c == '\n' then [] :: l :: ls else (c :: l) :: ls

/-- `texto.splitlines()`: no trailing empty entry for a trailing newline,
and the empty string has no lines. -/
def splitlinesChars (cs : List Char) : List (List Char) :=
  if cs.isEmpty then []
  else if cs.getLast? == some '\n' then (splitNL cs).dropLast
  else splitNL cs

/-- The shared line scan of both paths of `buscar_notas_finales`
(lines 191-199 and 204-213): strip each line, skip blank lines, stop at the
first line whose uppercase form contains "OBSERVACIONES", collect the last
in-range number of each remaining line. -/
def scanNotas : List (List Char) → List ℚ
  | [] => []
  | ln :: rest =>
    let s := trimChars ln
    if s.isEmpty then scanNotas rest
    else if containsSub "OBSERVACIONES".data (s.map Char.toUpper) then []
    else
      match extraeUltNum s with
      | some v => v :: scanNotas rest
      | none => scanNotas rest

/-- Round-half-to-even of the fraction `num / den` (`den > 0`) as an
integer, modelling Python's banker's rounding. -/
def roundHalfEvenInt (num : Int) (den : Nat) : Int :=
  let f := num.fdiv den
  let r := num - f * den
  if 2 * r < (den : Int) then f
  else if (den : Int) < 2 * r then f + 1
  else if f % 2 == 0 then f else f + 1

/-- Embeds Python `round(n, 2)` on the exact rational model. -/
def round2 (q : ℚ) : ℚ := mkRat (roundHalfEvenInt (q.num * 100) q.den) 100

/-- The dedup loop of `buscar_notas_finales` (lines 218-224): drop a value
whose 2-decimal rounding was already seen, first occurrence kept. -/
def dedupRound2 (vistos : List ℚ) : List ℚ → List ℚ
  | [] => []
  | n :: ns =>
    if vistos.contains (round2 n) then dedupRound2 vistos ns
    else n :: dedupRound2 (round2 n :: vistos) ns

/-- Embeds `buscar_notas_finales` (lines 170-225). -/
def buscarNotasFinales (texto : String) : List ℚ :=
  let lineas := splitlinesChars texto.data
  if lineas.isEmpty then []
  else
    match lineas.findIdx? esLineaCabeceraNotas with
    | none =>
      (scanNotas lineas).filter (fun n => decide (30 ≤ n ∧ n ≤ 100))
    | some i =>
      dedupRound2 []
        ((scanNotas (lineas.drop (i + 1))).filter (fun n => decide (30 ≤ n ∧ n ≤ 100)))

/-- The distinct reported outcomes of `procesar_boletin` (lines 227-245). -/
inductive ResultadoBoletin where
  | notas (lista : List ℚ) (promedio : ℚ)
  | sinNotas
  | fallo
deriving DecidableEq

/-- Exact rational addition by numerator/denominator cross product; the
value equals `a + b` (see `addQ_eq`), stated this way so that concrete
grade reports evaluate inside `decide`. -/
def addQ (a b : ℚ) : ℚ := mkRat (a.num * b.den + b.num * a.den) (a.den * b.den)

/-- `sum(notas) / len(notas)` with exact rational value. -/
def promedioDe (ns : List ℚ) : ℚ := mkRat (ns.foldl addQ 0).num ((ns.foldl addQ 0).den * ns.length)

/-- Embeds `procesar_boletin`: `none` models an exception while obtaining
the text (caught and reported as an error line); otherwise the grade list
and its mean are reported, or a no-grades line. -/
def procesarBoletin (doc : Option String) : ResultadoBoletin :=
  match doc with
  | none => ResultadoBoletin.fallo
  | some texto =>
    let notas := buscarNotasFinales texto
    if notas ≠ [] then ResultadoBoletin.notas notas (promedioDe notas)
    else ResultadoBoletin.sinNotas

/-- Embeds the loop of `correr_calificaciones` (lines 259-260). -/
def correrCalificaciones (docs : List (Option String)) : List ResultadoBoletin :=
  docs.map procesarBoletin

example : findallGrade "Math 01 85".data = ["01".data, "85".data] := by decide
example : extraeUltNum "Math 01 85".data = some 85 := by decide
example : buscarNotasFinales "NOTA FINAL\nMath 01 85\nScience 02 91\nOBSERVACIONES: good" =
    [85, 91] := by decide
example : procesarBoletin (some "NOTA FINAL\nMath 01 85\nScience 02 91\nOBSERVACIONES: good") =
    ResultadoBoletin.notas [85, 91] 88 := by decide
example : buscarNotasFinales "90\n90" = [90, 90] := by decide
example : buscarNotasFinales "NOTA FINAL\n90\n90" = [90] := by decide
example : findallGrade "10045".data = ["100".data, "45".data] := by decide
example : buscarNotasFinales "10045" = [45] := by decide
example : buscarNotasFinales "Alumno 12\nMath 85\nID 2024" = [85] := by decide

/-! ## Spec-side formulations

Definitions written from the spec's words, to be compared with the embedded
source functions in the refinement theorems below. -/

/-- From the spec: "the separator occurring later in the string is the
decimal separator" — the decimal separator is `,` iff the last separator
occurring in the string is a comma. -/
def lastSepIsComma (cs : List Char) : Bool := cs.reverse.find? isSep == some ','

/-- From the spec's rule for tokens holding both separators: the later
separator is the decimal one, the other is removed as grouping, and a
decimal `,` is rewritten to `.`. -/
def specLaterSepTransform (cs : List Char) : List Char :=
  if lastSepIsComma cs then
    (cs.filter (fun c => c != '.')).map (fun c => if c == ',' then '.' else c)
  else cs.filter (fun c => c != ',')

/-- From the spec's rule for tokens with no `,` and several `.`: remove
every dot that is followed by another dot, keeping only the last one. -/
def removeNonLastDots : List Char → List Char
  | [] => []
  | c :: cs =>
    if c == '.' && cs.contains '.' then removeNonLastDots cs
    else c :: removeNonLastDots cs

/-- From the spec's grade-scan description: the scanned region is the
non-blank stripped lines up to (excluding) the first one containing the
section terminator "OBSERVACIONES" (case-insensitively). -/
def gradeSectionLines (ls : List (List Char)) : List (List Char) :=
  ((ls.map trimChars).filter (fun s => !s.isEmpty)).takeWhile
    (fun s => !containsSub "OBSERVACIONES".data (s.map Char.toUpper))

/-- From the spec: collect the last in-range number of each line of the
scanned region. -/
def specGradeScan (ls : List (List Char)) : List ℚ :=
  (gradeSectionLines ls).filterMap extraeUltNum

/-! ## Lemmas about `rfind` and the later-separator rule -/

theorem rfind_append (c y : Char) (xs : List Char) :
    rfind c (xs ++ [y]) = if y == c then (xs.length : Int) else rfind c xs := by
  induction xs with
  | nil => by_cases h : (y == c) = true <;> simp [rfind, h]
  | cons x xs ih =>
    by_cases h : (y == c) = true
    · simp only [List.cons_append, rfind, List.append_eq, ih, h, if_true, List.length_cons,
        eq_self_iff_true]
      rw [if_pos (show ((xs.length : Int) ≥ 0) by omega)]
      push_cast
      ring
    · simp [List.cons_append, rfind, List.append_eq, ih, h]

theorem rfind_lt_length (c : Char) (xs : List Char) : rfind c xs < (xs.length : Int) := by
  induction xs with
  | nil => simp [rfind]
  | cons x xs ih =>
    simp only [rfind, List.length_cons]
    by_cases h : rfind c xs ≥ 0
    · rw [if_pos h]; push_cast; omega
    · rw [if_neg h]
      by_cases hx : (x == c) = true
      all_goals simp [hx]
      all_goals omega

theorem rfind_nonneg_of_mem (c : Char) (xs : List Char) (h : c ∈ xs) : 0 ≤ rfind c xs := by
  induction xs with
  | nil => simp at h
  | cons x xs ih =>
    simp only [rfind]
    by_cases h0 : rfind c xs ≥ 0
    · rw [if_pos h0]; omega
    · rw [if_neg h0]
      have hx : (x == c) = true := by
        rcases List.mem_cons.mp h with h1 | h2
        · subst h1; simp
        · exact absurd (ih h2) h0
      simp [hx]

/-- Given both separators occur, the source's comparison of `rfind` results
agrees with the spec's "the separator occurring later is a comma". -/
theorem later_sep_iff : ∀ cs : List Char, ',' ∈ cs → '.' ∈ cs →
    ((rfind '.' cs < rfind ',' cs) ↔ lastSepIsComma cs = true) := by
  intro cs
  induction cs using List.reverseRecOn with
  | nil => intro h; simp at h
  | append_singleton xs y ih =>
    intro hc hd
    rw [rfind_append, rfind_append]
    unfold lastSepIsComma
    rw [List.reverse_append]
    simp only [List.reverse_singleton, List.singleton_append]
    by_cases hy : y = ','
    · subst hy
      rw [List.find?_cons_of_pos _ (show isSep ',' = true from rfl)]
      simp only [show ((',' : Char) == ',') = true from rfl, if_true,
        show ((',' : Char) == '.') = false from rfl, if_false]
      have h1 := rfind_lt_length '.' xs
      simp only [beq_self_eq_true]
      exact iff_of_true h1 trivial
    · by_cases hy2 : y = '.'
      · subst hy2
        rw [List.find?_cons_of_pos _ (show isSep '.' = true from rfl)]
        simp only [show (('.' : Char) == '.') = true from rfl, if_true,
          show (('.' : Char) == ',') = false from rfl, if_false]
        have h1 := rfind_lt_length ',' xs
        refine iff_of_false (by omega) ?_
        intro hfalse
        simp at hfalse
      · have hsep : ¬ (isSep y = true) := by
          simp only [isSep, Bool.or_eq_true, beq_iff_eq]
          push_neg
          exact ⟨hy2, hy⟩
        rw [List.find?_cons_of_neg _ hsep]
        rw [if_neg (show ¬ ((y == '.') = true) by simp [hy2]),
          if_neg (show ¬ ((y == ',') = true) by simp [hy])]
        have hc' : ',' ∈ xs := by
          rcases List.mem_append.mp hc with h | h
          · exact h
          · simp only [List.mem_singleton] at h; exact absurd h.symm hy
        have hd' : '.' ∈ xs := by
          rcases List.mem_append.mp hd with h | h
          · exact h
          · simp only [List.mem_singleton] at h; exact absurd h.symm hy2
        unfold lastSepIsComma at ih
        exact ih hc' hd'

/-! ## Lemmas about `splitDot` / `joinParts` versus the spec's
"remove all but the last dot" -/

theorem splitDot_ne_nil : ∀ cs : List Char, splitDot cs ≠ []
  | [] => by simp [splitDot]
  | c :: cs => by
    have h := splitDot_ne_nil cs
    unfold splitDot
    cases hs : splitDot cs with
    | nil => exact absurd hs h
    | cons p ps => by_cases hc : (c == '.') = true <;> simp [hc]

theorem splitDot_length : ∀ cs : List Char, (splitDot cs).length = cs.count '.' + 1
  | [] => by simp [splitDot]
  | c :: cs => by
    have ih := splitDot_length cs
    unfold splitDot
    cases hs : splitDot cs with
    | nil => exact absurd hs (splitDot_ne_nil cs)
    | cons p ps =>
      rw [hs] at ih
      by_cases hc : c = '.'
      · subst hc
        simp [List.count_cons, List.length_cons] at ih ⊢
        omega
      · have hb : (c == '.') = false := by simp [hc]
        have hb2 : (('.' : Char) == c) = false := by
          rw [beq_eq_false_iff_ne]
          exact fun h2 => hc h2.symm
        simp [hb, hb2, List.count_cons, List.length_cons] at ih ⊢
        omega

theorem splitDot_no_dot : ∀ cs : List Char, '.' ∉ cs → splitDot cs = [cs]
  | [] => by intro _; rfl
  | c :: cs => by
    intro h
    have hc : ¬ c = '.' := fun hh => h (by simp [hh])
    have hcs : '.' ∉ cs := fun hh => h (List.mem_cons_of_mem _ hh)
    unfold splitDot
    rw [splitDot_no_dot cs hcs]
    simp [show (c == '.') = false by simp [hc]]

theorem removeNonLastDots_no_dot : ∀ cs : List Char, '.' ∉ cs → removeNonLastDots cs = cs
  | [] => by intro _; rfl
  | c :: cs => by
    intro h
    have hc : ¬ c = '.' := fun hh => h (by simp [hh])
    have hcs : '.' ∉ cs := fun hh => h (List.mem_cons_of_mem _ hh)
    unfold removeNonLastDots
    rw [removeNonLastDots_no_dot cs hcs]
    simp [show (c == '.') = false by simp [hc]]

/-- The source's split-and-join dance equals the spec's "remove every dot
but the last" whenever at least one dot is present (the only situation in
which `_normaliza_num` performs it). -/
theorem joinParts_splitDot : ∀ cs : List Char, '.' ∈ cs →
    joinParts (splitDot cs) = removeNonLastDots cs := by
  intro cs
  induction cs with
  | nil => intro h; simp at h
  | cons c cs ih =>
    intro hmem
    by_cases hdot : '.' ∈ cs
    · have ihh := ih hdot
      have hcont : cs.contains '.' = true := by simp [hdot]
      by_cases hc : c = '.'
      · subst hc
        unfold splitDot
        cases hs : splitDot cs with
        | nil => exact absurd hs (splitDot_ne_nil cs)
        | cons p ps =>
          rw [hs] at ihh
          unfold removeNonLastDots
          rw [← ihh]
          simp [hcont, hdot, joinParts, List.getLastD_cons]
      · unfold splitDot
        cases hs : splitDot cs with
        | nil => exact absurd hs (splitDot_ne_nil cs)
        | cons p ps =>
          have hlen : (splitDot cs).length = cs.count '.' + 1 := splitDot_length cs
          have hcount : 0 < cs.count '.' := List.count_pos_iff.mpr hdot
          rw [hs] at ihh hlen
          cases ps with
          | nil => simp at hlen; omega
          | cons q qs =>
            have hb : (c == '.') = false := by simp [hc]
            unfold removeNonLastDots
            rw [← ihh]
            simp [hb, joinParts, List.getLastD_cons]
    · -- the head is the only dot
      have hc : c = '.' := by
        rcases List.mem_cons.mp hmem with h1 | h2
        · exact h1.symm
        · exact absurd h2 hdot
      subst hc
      unfold splitDot
      rw [splitDot_no_dot cs hdot]
      unfold removeNonLastDots
      have hcont : cs.contains '.' = false := by simp [hdot]
      rw [removeNonLastDots_no_dot cs hdot]
      simp [hcont, hdot, joinParts]

/-! ## The line scan agrees with the spec's description of the section -/

/-- The interleaved scan of the source (skip blanks, stop at the
terminator, collect per line) equals the spec's staged description:
strip, drop blanks, cut at the terminator, extract. -/
theorem scanNotas_eq_spec : ∀ ls : List (List Char), scanNotas ls = specGradeScan ls := by
  intro ls
  induction ls with
  | nil => rfl
  | cons ln rest ih =>
    by_cases h1 : (trimChars ln).isEmpty = true
    · simp [scanNotas, specGradeScan, gradeSectionLines, h1, ih]
    · by_cases h2 : containsSub "OBSERVACIONES".data ((trimChars ln).map Char.toUpper) = true
      · simp [scanNotas, specGradeScan, gradeSectionLines, h1, h2]
      · cases hv : extraeUltNum (trimChars ln) with
        | none => simp [scanNotas, specGradeScan, gradeSectionLines, h1, h2, hv, ih]
        | some v => simp [scanNotas, specGradeScan, gradeSectionLines, h1, h2, hv, ih]

/-! ## Deduplication invariants -/

/-- The grade dedup loop yields a list whose members have pairwise distinct
2-decimal roundings, none of them in `vistos`. -/
theorem dedupRound2_spec : ∀ (l vistos : List ℚ),
    List.Pairwise (fun a b => round2 a ≠ round2 b) (dedupRound2 vistos l) ∧
    ∀ x ∈ dedupRound2 vistos l, round2 x ∉ vistos := by
  intro l
  induction l with
  | nil => intro vistos; exact ⟨List.Pairwise.nil, by simp [dedupRound2]⟩
  | cons n ns ih =>
    intro vistos
    unfold dedupRound2
    by_cases h : vistos.contains (round2 n) = true
    · rw [if_pos h]; exact ih vistos
    · rw [if_neg h]
      have hm : round2 n ∉ vistos := by simpa using h
      have ih' := ih (round2 n :: vistos)
      constructor
      · refine List.Pairwise.cons ?_ ih'.1
        intro b hb heq
        exact ih'.2 b hb (by rw [← heq]; exact List.mem_cons_self _ _)
      · intro x hx
        rcases List.mem_cons.mp hx with rfl | hx'
        · exact hm
        · exact fun hmem => ih'.2 x hx' (List.mem_cons_of_mem _ hmem)

/-- The money dedup loop yields a duplicate-free list, disjoint from
`vistos`. -/
theorem dedupFirstAux_spec : ∀ (l vistos : List ℚ),
    (dedupFirstAux vistos l).Nodup ∧ ∀ x ∈ dedupFirstAux vistos l, x ∉ vistos := by
  intro l
  induction l with
  | nil => intro vistos; exact ⟨List.nodup_nil, by simp [dedupFirstAux]⟩
  | cons v vs ih =>
    intro vistos
    unfold dedupFirstAux
    by_cases h : vistos.contains v = true
    · rw [if_pos h]; exact ih vistos
    · rw [if_neg h]
      have hm : v ∉ vistos := by simpa using h
      have ih' := ih (v :: vistos)
      constructor
      · rw [List.nodup_cons]
        refine ⟨?_, ih'.1⟩
        intro hv
        exact ih'.2 v hv (List.mem_cons_self _ _)
      · intro x hx
        rcases List.mem_cons.mp hx with rfl | hx'
        · exact hm
        · exact fun hmem => ih'.2 x hx' (List.mem_cons_of_mem _ hmem)

/-! ## Sortedness facts for `buscar_montos` -/

theorem buscarMontos_sorted (texto : String) :
    (buscarMontos texto).Sorted (· ≤ ·) :=
  List.sorted_insertionSort _ _

theorem buscarMontos_nodup (texto : String) : (buscarMontos texto).Nodup :=
  ((List.perm_insertionSort (· ≤ ·) _).nodup_iff).mpr
    (dedupFirstAux_spec ((findallMoney texto.data).filterMap normChars) []).1

/-- In a `≤`-sorted list of rationals every member is at most the last
element. -/
theorem sorted_mem_le_getLastD : ∀ (l : List ℚ) (d : ℚ), l.Sorted (· ≤ ·) →
    ∀ x ∈ l, x ≤ l.getLastD d := by
  intro l
  induction l with
  | nil => intro d _ x hx; simp at hx
  | cons a t ih =>
    intro d hs x hx
    rw [List.getLastD_cons]
    rcases List.mem_cons.mp hx with rfl | hx'
    · cases t with
      | nil => simp [List.getLastD]
      | cons b t2 =>
        have h1 : x ≤ b := (List.sorted_cons.mp hs).1 b (by simp)
        have h2 : b ≤ (b :: t2).getLastD x := ih x (List.sorted_cons.mp hs).2 b (by simp)
        exact le_trans h1 h2
    · exact ih a (List.sorted_cons.mp hs).2 x hx'

theorem getLastD_mem : ∀ (l : List ℚ) (d : ℚ), l ≠ [] → l.getLastD d ∈ l := by
  intro l
  induction l with
  | nil => intro d h; exact absurd rfl h
  | cons a t ih =>
    intro d _
    rw [List.getLastD_cons]
    cases t with
    | nil => simp [List.getLastD]
    | cons b t2 => exact List.mem_cons_of_mem _ (ih a (by simp))

/-! ## Character-class facts and no-op stripping on numeral strings -/

theorem isDigitC_ne_dot {c : Char} (h : isDigitC c = true) : (c == '.') = false := by
  rw [beq_eq_false_iff_ne]
  rintro rfl
  exact absurd h (by decide)

theorem isDigitC_ne_comma {c : Char} (h : isDigitC c = true) : (c == ',') = false := by
  rw [beq_eq_false_iff_ne]
  rintro rfl
  exact absurd h (by decide)

theorem isDigitC_not_space {c : Char} (h : isDigitC c = true) : isSpaceC c = false := by
  unfold isDigitC at h
  rw [Bool.and_eq_true] at h
  have h1 : 48 ≤ c.toNat := of_decide_eq_true h.1
  have h2 : c.toNat ≤ 57 := of_decide_eq_true h.2
  simp only [isSpaceC, Bool.or_eq_false_iff, beq_eq_false_iff_ne, ne_eq]
  omega

theorem digit_or_dot_not_space {c : Char} (h : (isDigitC c || c == '.') = true) :
    isSpaceC c = false := by
  rw [Bool.or_eq_true] at h
  rcases h with h | h
  · exact isDigitC_not_space h
  · rw [show c = '.' by simpa using h]
    decide

theorem digit_or_dot_ne_blank {c : Char} (h : (isDigitC c || c == '.') = true) :
    (c != ' ') = true := by
  rw [Bool.or_eq_true] at h
  rcases h with h | h
  · simp only [bne, Bool.not_eq_true']
    rw [beq_eq_false_iff_ne]
    rintro rfl
    exact absurd h (by decide)
  · rw [show c = '.' by simpa using h]
    decide

theorem dropWhile_isSpaceC_eq_self {l : List Char} (h : ∀ c ∈ l, isSpaceC c = false) :
    l.dropWhile isSpaceC = l := by
  cases l with
  | nil => rfl
  | cons a t => rw [List.dropWhile_cons, h a (by simp)]; simp

theorem trimChars_eq_self {l : List Char} (h : ∀ c ∈ l, isSpaceC c = false) :
    trimChars l = l := by
  unfold trimChars
  rw [dropWhile_isSpaceC_eq_self h,
    dropWhile_isSpaceC_eq_self (fun c hc => h c (List.mem_reverse.mp hc))]
  exact List.reverse_reverse l

/-- On a string of digits and dots, the strip-and-despace preprocessing of
`_normaliza_num` is the identity. -/
theorem strip_eq_self_of_numeral {l : List Char}
    (h : ∀ c ∈ l, (isDigitC c || c == '.') = true) :
    (trimChars l).filter (fun c => c != ' ') = l := by
  rw [trimChars_eq_self (fun c hc => digit_or_dot_not_space (h c hc))]
  exact List.filter_eq_self.mpr (fun c hc => digit_or_dot_ne_blank (h c hc))

/-! ## `parseFloatChars` on an explicit decimal numeral -/

theorem takeWhile_digits_append (ds fs : List Char) (h1 : ∀ c ∈ ds, isDigitC c = true) :
    (ds ++ '.' :: fs).takeWhile (fun c => c != '.') = ds := by
  induction ds with
  | nil => simp [List.takeWhile_cons]
  | cons a t ih =>
    rw [List.cons_append, List.takeWhile_cons]
    have ha : (a != '.') = true := by
      simp only [bne, Bool.not_eq_true']
      exact isDigitC_ne_dot (h1 a (by simp))
    rw [ha]
    simp only [if_true]
    rw [ih (fun c hc => h1 c (by simp [hc]))]

theorem dropWhile_digits_append (ds fs : List Char) (h1 : ∀ c ∈ ds, isDigitC c = true) :
    (ds ++ '.' :: fs).dropWhile (fun c => c != '.') = '.' :: fs := by
  induction ds with
  | nil => simp [List.dropWhile_cons]
  | cons a t ih =>
    rw [List.cons_append, List.dropWhile_cons]
    have ha : (a != '.') = true := by
      simp only [bne, Bool.not_eq_true']
      exact isDigitC_ne_dot (h1 a (by simp))
    rw [ha]
    simp only [if_true]
    exact ih (fun c hc => h1 c (by simp [hc]))

theorem count_dot_decimal (ds fs : List Char) (h1 : ∀ c ∈ ds, isDigitC c = true)
    (h2 : ∀ c ∈ fs, isDigitC c = true) : (ds ++ '.' :: fs).count '.' = 1 := by
  rw [List.count_append, List.count_cons]
  have hds : ds.count '.' = 0 := List.count_eq_zero.mpr (fun hmem => by
    have := isDigitC_ne_dot (h1 '.' hmem)
    simp at this)
  have hfs : fs.count '.' = 0 := List.count_eq_zero.mpr (fun hmem => by
    have := isDigitC_ne_dot (h2 '.' hmem)
    simp at this)
  simp [hds, hfs]

theorem parseFloatChars_decimal (ds fs : List Char) (hne : ds ≠ [])
    (h1 : ∀ c ∈ ds, isDigitC c = true) (h2 : ∀ c ∈ fs, isDigitC c = true) :
    parseFloatChars (ds ++ '.' :: fs) =
      some (mkRat (digitsVal ds * 10 ^ fs.length + digitsVal fs) (10 ^ fs.length)) := by
  have hall : (ds ++ '.' :: fs).all (fun c => isDigitC c || c == '.') = true := by
    rw [List.all_eq_true]
    intro x hx
    rcases List.mem_append.mp hx with h | h
    · simp [h1 x h]
    · rcases List.mem_cons.mp h with rfl | h
      · simp
      · simp [h2 x h]
  have hany : (ds ++ '.' :: fs).any isDigitC = true := by
    rw [List.any_eq_true]
    cases ds with
    | nil => exact absurd rfl hne
    | cons a t => exact ⟨a, by simp, h1 a (by simp)⟩
  have hemp : (ds ++ '.' :: fs).isEmpty = false := by cases ds <;> rfl
  have hcount := count_dot_decimal ds fs h1 h2
  unfold parseFloatChars
  rw [hemp, hall, hany, hcount]
  simp only [show ((1 : Nat) == 0) = false from rfl, show ((1 : Nat) == 1) = true from rfl,
    Bool.false_eq_true, if_false, eq_self_iff_true, if_true]
  rw [takeWhile_digits_append ds fs h1, dropWhile_digits_append ds fs h1]
  simp

/-- On an explicit decimal numeral, `_normaliza_num` is just the parse. -/
theorem normChars_decimal (ds fs : List Char) (hne : ds ≠ [])
    (h1 : ∀ c ∈ ds, isDigitC c = true) (h2 : ∀ c ∈ fs, isDigitC c = true) :
    normChars (ds ++ '.' :: fs) =
      some (mkRat (digitsVal ds * 10 ^ fs.length + digitsVal fs) (10 ^ fs.length)) := by
  have hchars : ∀ c ∈ ds ++ '.' :: fs, (isDigitC c || c == '.') = true := by
    intro x hx
    rcases List.mem_append.mp hx with h | h
    · simp [h1 x h]
    · rcases List.mem_cons.mp h with rfl | h
      · simp
      · simp [h2 x h]
  have hstrip := strip_eq_self_of_numeral hchars
  have hnc : (ds ++ '.' :: fs).contains ',' = false := by
    rw [Bool.eq_false_iff]
    intro hcont
    have hmem : ',' ∈ ds ++ '.' :: fs := by simpa using hcont
    exact absurd (hchars ',' hmem) (by decide)
  have hemp : (ds ++ '.' :: fs).isEmpty = false := by cases ds <;> rfl
  have hcount := count_dot_decimal ds fs h1 h2
  simp only [normChars, hstrip, hemp, Bool.false_eq_true, if_false, hnc, Bool.false_and,
    hcount]
  rw [if_neg (by omega : ¬ ((1:Nat) > 1))]
  exact parseFloatChars_decimal ds fs hne h1 h2

/-! ## Value bridges between `mkRat` numerals and field expressions -/

theorem mkRat_natCast_eq (n k : ℕ) : (mkRat (n : ℤ) (10 ^ k) : ℚ) = (n : ℚ) / 10 ^ k := by
  rw [Rat.mkRat_eq_divInt, Rat.divInt_eq_div]
  push_cast
  try ring

theorem mkRat_decimal_div (a b k : ℕ) :
    (mkRat ((a : ℤ) * 10 ^ k + (b : ℤ)) (10 ^ k) : ℚ) = ((a * 10 ^ k + b : ℕ) : ℚ) / 10 ^ k := by
  rw [Rat.mkRat_eq_divInt, Rat.divInt_eq_div]
  push_cast
  try ring

theorem mkRat_decimal_eq (a b k : ℕ) :
    (mkRat ((a : ℤ) * 10 ^ k + (b : ℤ)) (10 ^ k) : ℚ) = (a : ℚ) + (b : ℚ) / 10 ^ k := by
  rw [Rat.mkRat_eq_divInt, Rat.divInt_eq_div]
  have h10 : ((10 : ℚ)) ^ k ≠ 0 := by positivity
  push_cast
  field_simp
  try ring

/-- Every successful `_normaliza_num` run ends in a `float` parse. -/
theorem normChars_parse (cs : List Char) (v : ℚ) (h : normChars cs = some v) :
    ∃ t : List Char, parseFloatChars t = some v := by
  simp only [normChars] at h
  split at h
  · simp at h
  · exact ⟨_, h⟩

/-- Every value produced by the `float` parse is a finite decimal. -/
theorem parseFloat_out (t : List Char) (v : ℚ) (h : parseFloatChars t = some v) :
    ∃ n k : ℕ, v = (n : ℚ) / 10 ^ k := by
  unfold parseFloatChars at h
  split at h
  · simp at h
  · split at h
    · split at h
      · split at h
        · exact ⟨digitsVal t, 0, by rw [← Option.some.inj h]; exact mkRat_natCast_eq _ 0⟩
        · split at h
          · exact ⟨_, _, by rw [← Option.some.inj h]; exact mkRat_decimal_div _ _ _⟩
          · simp at h
      · simp at h
    · simp at h

/-! ## Claim theorems -/

/-- C2: on every numeral token holding both `.` and `,` (after space
removal), `_normaliza_num` parses the string transformed by the
later-separator rule: the separator occurring later is the decimal one, the
other is deleted, a decimal `,` becomes `.`; in particular
`_normaliza_num "1.234,56" = 1234.56` and `_normaliza_num "1,234.56" = 1234.56`. -/
theorem c2_theorem :
    (∀ s : String,
        ',' ∈ (trimChars s.data).filter (fun c => c != ' ') →
        '.' ∈ (trimChars s.data).filter (fun c => c != ' ') →
        normalizaNum s = parseFloatChars
          (specLaterSepTransform ((trimChars s.data).filter (fun c => c != ' ')))) ∧
    normalizaNum "1.234,56" = some (1234.56 : ℚ) ∧
    normalizaNum "1,234.56" = some (1234.56 : ℚ) := by
  refine ⟨?_, ?_, ?_⟩
  · intro s hc hd
    simp only [normalizaNum, normChars]
    have hcont1 : ((trimChars s.data).filter (fun c => c != ' ')).contains ',' = true := by
      simpa using hc
    have hcont2 : ((trimChars s.data).filter (fun c => c != ' ')).contains '.' = true := by
      simpa using hd
    have hne : ((trimChars s.data).filter (fun c => c != ' ')).isEmpty = false := by
      cases hcs2 : (trimChars s.data).filter (fun c => c != ' ') with
      | nil => rw [hcs2] at hc; simp at hc
      | cons a t => rfl
    simp only [hne, Bool.false_eq_true, if_false, hcont1, hcont2, Bool.and_self,
      eq_self_iff_true, if_true]
    congr 1
    rw [specLaterSepTransform]
    by_cases h : lastSepIsComma ((trimChars s.data).filter (fun c => c != ' ')) = true
    · rw [if_pos ((later_sep_iff _ hc hd).mpr h), if_pos h]
    · rw [if_neg (fun hlt => h ((later_sep_iff _ hc hd).mp hlt)), if_neg h]
  · rw [show (1234.56 : ℚ) = mkRat 123456 100 by
      rw [show (1234.56 : ℚ) = Rat.ofScientific 123456 true 2 from rfl,
        Rat.ofScientific_true_def]
      decide]
    decide
  · rw [show (1234.56 : ℚ) = mkRat 123456 100 by
      rw [show (1234.56 : ℚ) = Rat.ofScientific 123456 true 2 from rfl,
        Rat.ofScientific_true_def]
      decide]
    decide

theorem c2_witness :
    normalizaNum "1.234,56" =
      parseFloatChars
        (specLaterSepTransform ((trimChars "1.234,56".data).filter (fun c => c != ' '))) :=
  c2_theorem.1 "1.234,56" (by decide) (by decide)

/-- C3: on every numeral token with no `,` and more than one `.` (after
space removal), `_normaliza_num` parses the token with every dot but the
last removed; in particular `_normaliza_num "12.3.456" = 123.456`. -/
theorem c3_theorem :
    (∀ s : String,
        ',' ∉ (trimChars s.data).filter (fun c => c != ' ') →
        1 < ((trimChars s.data).filter (fun c => c != ' ')).count '.' →
        normalizaNum s = parseFloatChars
          (removeNonLastDots ((trimChars s.data).filter (fun c => c != ' ')))) ∧
    normalizaNum "12.3.456" = some (123.456 : ℚ) := by
  constructor
  · intro s hc hcount
    simp only [normalizaNum, normChars]
    have hcont1 : ((trimChars s.data).filter (fun c => c != ' ')).contains ',' = false := by
      simpa using hc
    have hdotmem : '.' ∈ (trimChars s.data).filter (fun c => c != ' ') :=
      List.count_pos_iff.mp (by omega)
    have hne : ((trimChars s.data).filter (fun c => c != ' ')).isEmpty = false := by
      cases hcs2 : (trimChars s.data).filter (fun c => c != ' ') with
      | nil => rw [hcs2] at hdotmem; simp at hdotmem
      | cons a t => rfl
    simp only [hne, Bool.false_eq_true, if_false, hcont1, Bool.false_and]
    rw [if_pos hcount]
    congr 1
    exact joinParts_splitDot _ hdotmem
  · rw [show (123.456 : ℚ) = mkRat 123456 1000 by
      rw [show (123.456 : ℚ) = Rat.ofScientific 123456 true 3 from rfl,
        Rat.ofScientific_true_def]
      decide]
    decide

theorem c3_witness :
    normalizaNum "12.3.456" =
      parseFloatChars (removeNonLastDots ((trimChars "12.3.456".data).filter (fun c => c != ' '))) :=
  c3_theorem.1 "12.3.456" (by decide) (by decide)

/-- C8: normalization is idempotent on its own outputs: every value a
successful `_normaliza_num` run returns is a finite decimal `n / 10^k`, and
normalizing any decimal numeral string `ds.fs` whose value is `v` — in
particular the canonical decimal form of `v` — returns `v` again. -/
theorem c8_theorem : ∀ (cs : List Char) (v : ℚ), normChars cs = some v →
    (∃ n k : ℕ, v = (n : ℚ) / 10 ^ k) ∧
    (∀ ds fs : List Char, ds ≠ [] → (∀ c ∈ ds, isDigitC c = true) →
      (∀ c ∈ fs, isDigitC c = true) →
      (digitsVal ds : ℚ) + (digitsVal fs : ℚ) / 10 ^ fs.length = v →
      normChars (ds ++ '.' :: fs) = some v) := by
  intro cs v h
  constructor
  · obtain ⟨t, ht⟩ := normChars_parse cs v h
    exact parseFloat_out t v ht
  · intro ds fs hne h1 h2 hval
    rw [normChars_decimal ds fs hne h1 h2]
    rw [mkRat_decimal_eq]
    rw [hval]

theorem c8_witness :
    (∃ n k : ℕ, (98 : ℚ) = (n : ℚ) / 10 ^ k) ∧
      normChars (['9', '8'] ++ '.' :: ['0']) = some 98 := by
  have h := c8_theorem ("98,0".data) 98 (by decide)
  refine ⟨h.1, h.2 ['9', '8'] ['0'] (by decide) (by decide) (by decide) ?_⟩
  rw [show digitsVal ['9', '8'] = 98 from rfl, show digitsVal ['0'] = 0 from rfl]
  norm_num

/-- C1 fails on the header-absent fallback path: the text `"90\n90"` has no
header line, both lines yield 90.0, and the returned GradeSequence is
`[90, 90]` — two values with equal 2-decimal roundings. -/
theorem c1_counterexample :
    buscarNotasFinales "90\n90" = [90, 90] ∧
    ¬ List.Pairwise (fun a b : ℚ => round2 a ≠ round2 b) (buscarNotasFinales "90\n90") := by
  refine ⟨by decide, ?_⟩
  intro hpw
  rw [show buscarNotasFinales "90\n90" = [90, 90] from by decide] at hpw
  exact (List.pairwise_cons.mp hpw).1 90 (by simp) rfl

/-- C1 amended: deduplication by 2-decimal rounding holds on the
header-found path (the fallback path returns the range-filtered values
without deduplication). -/
theorem c1_amended_theorem (texto : String) (i : ℕ)
    (h : (splitlinesChars texto.data).findIdx? esLineaCabeceraNotas = some i) :
    List.Pairwise (fun a b : ℚ => round2 a ≠ round2 b) (buscarNotasFinales texto) := by
  simp only [buscarNotasFinales]
  have hne : (splitlinesChars texto.data).isEmpty = false := by
    cases hsp : splitlinesChars texto.data with
    | nil => rw [hsp] at h; simp at h
    | cons a t => rfl
  simp only [hne, Bool.false_eq_true, if_false, h]
  exact (dedupRound2_spec _ []).1

theorem c1_amended_witness :
    List.Pairwise (fun a b : ℚ => round2 a ≠ round2 b)
      (buscarNotasFinales "NOTA FINAL\n90\n90") :=
  c1_amended_theorem "NOTA FINAL\n90\n90" 0 (by decide)

/-- C4: for every input text the candidate list of `buscar_montos` is
strictly increasing — duplicate-free and ascending, ordered by sorting
rather than discovery order. -/
theorem c4_theorem (texto : String) : List.Pairwise (· < ·) (buscarMontos texto) :=
  List.Sorted.lt_of_le (buscarMontos_sorted texto) (buscarMontos_nodup texto)

/-- C5: whenever `procesar_factura` reports a total candidate, that value
is the maximum of the reported candidate list; on
`"Total: $1,200.00 and 50.00"` the candidates are `[50, 1200]`, the TOTAL
flag fires, and the candidate reported is 1200. -/
theorem c5_theorem :
    (∀ (texto : String) (m : List ℚ) (c : ℚ),
        procesarFactura (some texto) = ResultadoFactura.conTotal m c →
        c ∈ m ∧ ∀ x ∈ m, x ≤ c) ∧
    buscarMontos "Total: $1,200.00 and 50.00" = [50, 1200] ∧
    hayTotal "Total: $1,200.00 and 50.00" = true ∧
    procesarFactura (some "Total: $1,200.00 and 50.00") =
      ResultadoFactura.conTotal [50, 1200] 1200 := by
  refine ⟨?_, by decide, by decide, by decide⟩
  intro texto m c h
  simp only [procesarFactura] at h
  split at h
  · rename_i hcond
    injection h with hm hc
    subst hm
    subst hc
    exact ⟨getLastD_mem _ 0 hcond.2,
      fun x hx => sorted_mem_le_getLastD _ 0 (buscarMontos_sorted _) x hx⟩
  · split at h
    · exact ResultadoFactura.noConfusion h
    · exact ResultadoFactura.noConfusion h

theorem c5_witness :
    (1200 : ℚ) ∈ [(50 : ℚ), 1200] ∧ ∀ x ∈ [(50 : ℚ), 1200], x ≤ 1200 :=
  c5_theorem.1 "Total: $1,200.00 and 50.00" [50, 1200] 1200 (by decide)

/-- C6: on the header-found path the scan covers exactly the stripped
non-blank lines after the header up to the first "OBSERVACIONES" line,
collecting the last in-range number per line, then range-filters and
dedups; the spec's example yields `[85, 91]` with mean 88. -/
theorem c6_theorem :
    (∀ (texto : String) (i : ℕ),
        (splitlinesChars texto.data).findIdx? esLineaCabeceraNotas = some i →
        buscarNotasFinales texto =
          dedupRound2 []
            ((specGradeScan ((splitlinesChars texto.data).drop (i + 1))).filter
              (fun n => decide (30 ≤ n ∧ n ≤ 100)))) ∧
    buscarNotasFinales "NOTA FINAL\nMath 01 85\nScience 02 91\nOBSERVACIONES: good" =
      [85, 91] ∧
    procesarBoletin (some "NOTA FINAL\nMath 01 85\nScience 02 91\nOBSERVACIONES: good") =
      ResultadoBoletin.notas [85, 91] 88 := by
  refine ⟨?_, by decide, by decide⟩
  intro texto i h
  simp only [buscarNotasFinales]
  have hne : (splitlinesChars texto.data).isEmpty = false := by
    cases hsp : splitlinesChars texto.data with
    | nil => rw [hsp] at h; simp at h
    | cons a t => rfl
  simp only [hne, Bool.false_eq_true, if_false, h]
  rw [scanNotas_eq_spec]

theorem c6_witness :
    buscarNotasFinales "NOTA FINAL\nMath 01 85\nScience 02 91\nOBSERVACIONES: good" =
      dedupRound2 []
        ((specGradeScan
            ((splitlinesChars
                "NOTA FINAL\nMath 01 85\nScience 02 91\nOBSERVACIONES: good".data).drop
              (0 + 1))).filter (fun n => decide (30 ≤ n ∧ n ≤ 100))) :=
  c6_theorem.1 "NOTA FINAL\nMath 01 85\nScience 02 91\nOBSERVACIONES: good" 0 (by decide)

/-- C7: with no header line, `buscar_notas_finales` scans all lines (same
terminator, same extraction) and keeps exactly the values in `[30, 100]`;
every returned value lies in that range, and out-of-range trailing numbers
(a 4-digit year's fragment, a small id) contribute nothing. -/
theorem c7_theorem :
    (∀ texto : String,
        (splitlinesChars texto.data).findIdx? esLineaCabeceraNotas = none →
        buscarNotasFinales texto =
          (specGradeScan (splitlinesChars texto.data)).filter
            (fun n => decide (30 ≤ n ∧ n ≤ 100))) ∧
    (∀ texto : String,
        (splitlinesChars texto.data).findIdx? esLineaCabeceraNotas = none →
        ∀ v ∈ buscarNotasFinales texto, 30 ≤ v ∧ v ≤ 100) ∧
    buscarNotasFinales "Alumno 12\nMath 85\nID 2024" = [85] := by
  have main : ∀ texto : String,
      (splitlinesChars texto.data).findIdx? esLineaCabeceraNotas = none →
      buscarNotasFinales texto =
        (specGradeScan (splitlinesChars texto.data)).filter
          (fun n => decide (30 ≤ n ∧ n ≤ 100)) := by
    intro texto h
    simp only [buscarNotasFinales]
    cases hsp : splitlinesChars texto.data with
    | nil => simp [specGradeScan, gradeSectionLines]
    | cons a t =>
      rw [hsp] at h
      simp only [List.isEmpty_cons, Bool.false_eq_true, if_false, h]
      rw [scanNotas_eq_spec]
  refine ⟨main, ?_, by decide⟩
  intro texto h v hv
  rw [main texto h] at hv
  exact of_decide_eq_true (List.mem_filter.mp hv).2

theorem c7_witness :
    (buscarNotasFinales "Alumno 12\nMath 85\nID 2024" =
      (specGradeScan (splitlinesChars "Alumno 12\nMath 85\nID 2024".data)).filter
        (fun n => decide (30 ≤ n ∧ n ≤ 100))) ∧
    (30 ≤ (85 : ℚ) ∧ (85 : ℚ) ≤ 100) :=
  ⟨c7_theorem.1 "Alumno 12\nMath 85\nID 2024" (by decide),
    c7_theorem.2.1 "Alumno 12\nMath 85\nID 2024" (by decide) 85 (by decide)⟩

/-- C9: per-document fault isolation, with a raising document modelled as
`none`: the batch map processes every position independently, a raising
document yields the error report, and the neighbouring documents of a
3-document batch are still fully processed. -/
theorem c9_theorem :
    (∀ (pre post : List (Option String)) (doc : Option String),
        correrFacturas (pre ++ doc :: post) =
          correrFacturas pre ++ procesarFactura doc :: correrFacturas post) ∧
    procesarFactura none = ResultadoFactura.fallo ∧
    (∀ (pre post : List (Option String)) (doc : Option String),
        correrCalificaciones (pre ++ doc :: post) =
          correrCalificaciones pre ++ procesarBoletin doc :: correrCalificaciones post) ∧
    procesarBoletin none = ResultadoBoletin.fallo ∧
    correrFacturas [some "Total: 10.00", none, some "20.00"] =
      [ResultadoFactura.conTotal [10] 10, ResultadoFactura.fallo,
        ResultadoFactura.sinPalabraTotal [20]] := by
  refine ⟨?_, rfl, ?_, rfl, by decide⟩
  · intro pre post doc
    simp [correrFacturas]
  · intro pre post doc
    simp [correrCalificaciones]

/-! ## The grade pattern accepts at most three integer digits per match -/

theorem takeWhile_all {p : Char → Bool} : ∀ {l : List Char}, (∀ x ∈ l, p x = true) →
    l.takeWhile p = l := by
  intro l
  induction l with
  | nil => intro _; rfl
  | cons a t ih =>
    intro h
    rw [List.takeWhile_cons]
    simp [h a (by simp), ih (fun x hx => h x (by simp [hx]))]

theorem takeWhile_append_stop {p : Char → Bool} : ∀ {l1 l2 : List Char} {c : Char},
    (∀ x ∈ l1, p x = true) → p c = false → (l1 ++ c :: l2).takeWhile p = l1 := by
  intro l1
  induction l1 with
  | nil => intro l2 c _ hc; simp [List.takeWhile_cons, hc]
  | cons a t ih =>
    intro l2 c h1 hc
    rw [List.cons_append, List.takeWhile_cons]
    simp [h1 a (by simp), ih (fun x hx => h1 x (by simp [hx])) hc]

theorem isSep_not_digit {c : Char} (h : isSep c = true) : isDigitC c = false := by
  simp only [isSep, Bool.or_eq_true, beq_iff_eq] at h
  rcases h with h1 | h1
  · rw [h1]; decide
  · rw [h1]; decide

theorem take_digits : ∀ (cs : List Char) (k : ℕ), k ≤ (cs.takeWhile isDigitC).length →
    ∀ c ∈ cs.take k, isDigitC c = true := by
  intro cs
  induction cs with
  | nil => intro k hk c hc; simp at hc
  | cons a t ih =>
    intro k hk c hc
    cases k with
    | zero => simp at hc
    | succ k' =>
      rw [List.takeWhile_cons] at hk
      by_cases ha : isDigitC a = true
      · simp only [ha, if_true, List.length_cons] at hk
        rw [List.take_succ_cons] at hc
        rcases List.mem_cons.mp hc with rfl | hc'
        · exact ha
        · exact ih k' (by omega) c hc'
      · simp [ha] at hk

/-- Each single match of the grade number pattern starts with at most three
digits (the `\d{1,3}` group); any further characters begin with a
separator. -/
theorem matchGradeNum_intdigits : ∀ (cs m r : List Char),
    matchGradeNum cs = some (m, r) → (m.takeWhile isDigitC).length ≤ 3 := by
  intro cs m r h
  simp only [matchGradeNum] at h
  have hknd : min 3 (cs.takeWhile isDigitC).length ≤ (cs.takeWhile isDigitC).length :=
    min_le_right _ _
  have hpre : ∀ c ∈ cs.take (min 3 (cs.takeWhile isDigitC).length), isDigitC c = true :=
    take_digits cs _ hknd
  have hprewhole :
      (cs.take (min 3 (cs.takeWhile isDigitC).length)).takeWhile isDigitC =
        cs.take (min 3 (cs.takeWhile isDigitC).length) := takeWhile_all hpre
  have hprelen : (cs.take (min 3 (cs.takeWhile isDigitC).length)).length ≤ 3 := by
    rw [List.length_take]
    omega
  split at h
  · exact Option.noConfusion h
  · split at h
    · -- three or more characters remain after the digits
      rename_i c1 d1 d2 rest heq
      split at h
      · rename_i hcond
        rw [Bool.and_eq_true, Bool.and_eq_true] at hcond
        have hm := congrArg Prod.fst (Option.some.inj h)
        simp only at hm
        rw [← hm, takeWhile_append_stop hpre (isSep_not_digit hcond.1.1)]
        exact hprelen
      · split at h
        · rename_i hcond2
          rw [Bool.and_eq_true] at hcond2
          have hm := congrArg Prod.fst (Option.some.inj h)
          simp only at hm
          rw [← hm, takeWhile_append_stop hpre (isSep_not_digit hcond2.1)]
          exact hprelen
        · have hm := congrArg Prod.fst (Option.some.inj h)
          simp only at hm
          rw [← hm, hprewhole]
          exact hprelen
    · -- exactly two characters remain
      rename_i c1 d1 heq
      split at h
      · rename_i hcond
        rw [Bool.and_eq_true] at hcond
        have hm := congrArg Prod.fst (Option.some.inj h)
        simp only at hm
        rw [← hm, takeWhile_append_stop hpre (isSep_not_digit hcond.1)]
        exact hprelen
      · have hm := congrArg Prod.fst (Option.some.inj h)
        simp only at hm
        rw [← hm, hprewhole]
        exact hprelen
    · -- at most one character remains
      have hm := congrArg Prod.fst (Option.some.inj h)
      simp only at hm
      rw [← hm, hprewhole]
      exact hprelen

theorem findallGradeAux_intdigits : ∀ (fuel : ℕ) (cs m : List Char),
    m ∈ findallGradeAux fuel cs → (m.takeWhile isDigitC).length ≤ 3 := by
  intro fuel
  induction fuel with
  | zero => intro cs m hm; simp [findallGradeAux] at hm
  | succ f ih =>
    intro cs m hm
    cases cs with
    | nil => simp [findallGradeAux] at hm
    | cons c cs' =>
      unfold findallGradeAux at hm
      split at hm
      · rename_i mo ro heq
        rcases List.mem_cons.mp hm with rfl | hm'
        · exact matchGradeNum_intdigits _ _ _ heq
        · exact ih _ _ hm'
      · exact ih _ _ hm

/-- C10: the grade number pattern accepts at most 3 integer digits per
match, so a longer digit run is tokenized into adjacent fragments; on the
line `"10045"` the matches are `["100", "45"]`, the extractor accepts the
trailing fragment 45.0, and it survives the final `[30, 100]` filter. -/
theorem c10_theorem :
    (∀ (cs m : List Char), m ∈ findallGrade cs → (m.takeWhile isDigitC).length ≤ 3) ∧
    findallGrade "10045".data = ["100".data, "45".data] ∧
    extraeUltNum "10045".data = some 45 ∧
    buscarNotasFinales "10045" = [45] := by
  refine ⟨?_, by decide, by decide, by decide⟩
  intro cs m hm
  exact findallGradeAux_intdigits cs.length cs m hm

theorem c10_witness : (("100".data.takeWhile isDigitC).length ≤ 3) :=
  c10_theorem.1 "10045".data "100".data (by decide)

end Deteccion
